import Mathlib

/-!
# Verification of the parallel copy-bandwidth benchmark (`src/bandwidth.c`)

Shallow embedding of the STREAM-style pthread/AVX-512 copy benchmark.

Modelling conventions:
* The element arrays `a` (source) and `b` (destination) are total functions
  `ℕ → ℚ` giving the value stored at each index.  The kernel only moves
  values, so exact rationals stand in for IEEE `float` values without loss.
* The `double` timing/statistics arithmetic is modelled over `ℚ` (exact
  arithmetic in place of IEEE doubles; every operation the code performs —
  sums, division, min, max — is mirrored operation by operation).
* Machine integer arithmetic is on `ℕ`/`Int`; the single place where 32-bit
  representation matters is the chunk-size mask `& ~15`, which is modelled
  with the explicit 32-bit mask `0xFFFFFFF0`.
* The worker threads of a trial have pairwise disjoint footprints, so the
  data effect of the parallel region equals a left fold of the per-worker
  kernels; the per-worker self-measured times enter the model as an opaque
  function `times : ℕ → ℚ`.
-/

/-- `STREAM_ARRAY_SIZE` default (line 71 of `bandwidth.c`). -/
def streamArraySize : ℕ := 128000000

/-- `NTIMES` default (lines 83–90): any compile-time value ≤ 1 is replaced
by 10, so the effective trial count is always ≥ 2. -/
def ntimes : ℕ := 10

/-- `sizeof(STREAM_TYPE)` for the default `STREAM_TYPE float` (line 153). -/
def bytesPerElement : ℕ := 4

/-- `bytes[0]` (lines 166–171): `2 * sizeof(STREAM_TYPE) * STREAM_ARRAY_SIZE`
— one read stream plus one write stream over the whole array. -/
def bytesCopy : ℚ := 2 * bytesPerElement * streamArraySize

/-- `FLT_MAX`, the initial value of `mintime[j]` (line 161):
`(2^24 - 1) * 2^104`. -/
def fltMax : ℚ := (2 ^ 24 - 1) * 2 ^ 104

/-- `get_cpu_id` (lines 184–194): the default (non-`SCATTER`) policy is the
identity mapping `tid ↦ tid`. -/
def get_cpu_id (tid : ℕ) : ℕ := tid

/-- Per-worker chunk size, line 307: `(STREAM_ARRAY_SIZE/threads) & ~15`
computed in `uint32_t`; `~15` is the 32-bit mask `0xFFFFFFF0`. -/
def chunkSize (A T : ℕ) : ℕ := (A / T) &&& 0xFFFFFFF0

/-- The worker descriptor `argc_t` (lines 195–203): base offsets of the
three array views, the element count, and (from the setup loop) the core the
worker is pinned to.  The barrier and the output time slot are modelled
separately. -/
structure WorkerInfo where
  aBase : ℕ
  bBase : ℕ
  cBase : ℕ
  size : ℕ
  core : ℕ
deriving DecidableEq

/-- One iteration body of the copy kernel (lines 216–217):
`key = _mm512_load_ps(&a[i]); _mm512_stream_ps(&b[i], key)` — the 16
consecutive source elements at offset `off` overwrite the destination. -/
def streamStore16 (src dst : ℕ → ℚ) (off : ℕ) : ℕ → ℚ :=
  fun j => if off ≤ j ∧ j < off + 16 then src j else dst j

/-- The copy kernel loop (lines 214–218): `for (i = 0; i < size; i += 16)`,
written in global coordinates — the worker's source and destination views
both start at offset `base` (lines 312–313), so lane `i + m` of an iteration
touches global index `base + i + m` in both arrays. -/
def copyLoop (src : ℕ → ℚ) (base size i : ℕ) (dst : ℕ → ℚ) : ℕ → ℚ :=
  if i < size then
    copyLoop src base size (i + 16) (streamStore16 src dst (base + i))
  else dst
termination_by size - i
decreasing_by omega

/-- The global array indices the copy kernel loop touches from loop counter
`i` on: each iteration loads from and stores to the 16 lanes
`base + i + 0 … base + i + 15`. -/
def copyLoopAccesses (base size i : ℕ) : List ℕ :=
  if i < size then
    (List.range 16).map (fun m => base + i + m) ++ copyLoopAccesses base size (i + 16)
  else []
termination_by size - i
decreasing_by omega

/-- Global array state: source `a` and destination `b` (lines 156–157);
array `c` is allocated but never touched by the copy kernel. -/
structure St where
  a : ℕ → ℚ
  b : ℕ → ℚ

/-- Data effect of one trial (lines 305–327): worker `tt` runs the copy
kernel at base offset `size * tt` with element count `size`.  The workers'
footprints are pairwise disjoint, so the parallel execution has the same
data effect as this left fold over the worker indices. -/
def runTrial (st : St) (threads S : ℕ) : St :=
  { st with
    b := (List.range threads).foldl (fun dst tt => copyLoop st.a (S * tt) S 0 dst) st.b }

/-- The per-worker setup loop (lines 305–317): for each `tt < threads`
compute the chunk size, request affinity to core `get_cpu_id tt`, and fill
`info[tt]` with views `&a[size*tt]`, `&b[size*tt]`, `&c[size*tt]` and the
count `size`.  `affinityOk tt` models whether the
`pthread_attr_setaffinity_np` call for worker `tt` succeeded; the source
discards its return value, so the descriptors cannot depend on it.  The
second component is the list of warning messages the loop emits (the source
prints none). -/
def setupWorkers (A threads : ℕ) (affinityOk : ℕ → Bool) :
    List WorkerInfo × List String :=
  ((List.range threads).map fun tt =>
    { aBase := chunkSize A threads * tt
      bBase := chunkSize A threads * tt
      cBase := chunkSize A threads * tt
      size := chunkSize A threads
      core := get_cpu_id tt }, [])

/-- The recorded time of one trial (lines 301 and 319–328):
`times[0][k]` starts at `0`, the join loop adds each worker's self-measured
time `info[tt].time`, and the sum is divided by `threads`. -/
def trialTime (threads : ℕ) (times : ℕ → ℚ) : ℚ :=
  (List.range threads).foldl (fun acc tt => acc + times tt) 0 / (threads : ℚ)

/-- The summary fold for the copy row (lines 336–349): for `k = 1 … n - 1`
(trial 0 is skipped) accumulate the running sum (init `0`), the running
minimum (init `FLT_MAX`, line 161) and the running maximum (init `0`,
line 160); finally the sum is divided by `n - 1`.  Returns
`(avgtime, mintime, maxtime)`. -/
def aggregate (n : ℕ) (times : ℕ → ℚ) : ℚ × ℚ × ℚ :=
  let s := (List.range' 1 (n - 1)).foldl
    (fun acc k => (acc.1 + times k, min acc.2.1 (times k), max acc.2.2 (times k)))
    ((0 : ℚ), fltMax, (0 : ℚ))
  (s.1 / ((n : ℚ) - 1), s.2.1, s.2.2)

/-- The printed bandwidth (line 351): `1.0E-06 * bytes[0] / mintime[0]`.
The thread count is printed on the same line but does not enter the
bandwidth expression. -/
def reportedBandwidth (threads n : ℕ) (times : ℕ → ℚ) : ℚ :=
  1 / 1000000 * bytesCopy / (aggregate n times).2.1

/-- The configuration-rejection cases the specification describes for the
configuration phase. -/
inductive ConfigError
  | nonPositiveThreads
  | zeroChunk
  | tooManyThreads
deriving DecidableEq

/-- The configuration phase of `main` (lines 274–322): `threads` is read by
`threads = atoll(argv[1])` (line 276) and used as-is; the source contains no
test of `threads` (not against `0`, not against the capacity 288 of `tid`/
`attr`/`info`) and no test that the chunk size is nonzero, so the phase
never fails.  (The three arrays are allocated at lines 249–251, before the
thread count is even read.) -/
def configPhase (threads : Int) : Except ConfigError Int := Except.ok threads

/-- Trip count of the spawn loop (lines 319–322):
`for (tt = 0; tt < threads; ++tt) pthread_create(...)` runs
`max threads 0` iterations. -/
def spawnCount (threads : Int) : ℕ := threads.toNat

/-- Lines 249–251: the return values of the three `posix_memalign` calls are
discarded and execution falls through to the array-initialization loop
unconditionally.  Given the three return codes, says whether the run
proceeds (there is no abort path in the source). -/
def proceedsAfterAlloc (r1 r2 r3 : Int) : Bool := true

/-- Lines 319–327: the return value of each `pthread_create` (line 321) is
discarded, and the join loop (lines 323–327) joins every slot and adds its
time field into the trial's time.  Given each create call's return code,
returns the worker indices whose time slots are accumulated. -/
def joinedWorkers (threads : ℕ) (createRet : ℕ → Int) : List ℕ :=
  List.range threads

/-! ## Chunk-size arithmetic -/

/-- The chunk size is always a multiple of the vector width 16: the mask
`0xFFFFFFF0` has zero low nibble. -/
lemma chunkSize_mod_sixteen (A T : ℕ) : chunkSize A T % 16 = 0 := by
  have h : chunkSize A T % 2 ^ 4 = chunkSize A T &&& 2 ^ 4 - 1 :=
    (Nat.and_pow_two_sub_one_eq_mod _ 4).symm
  have h2 : chunkSize A T &&& 2 ^ 4 - 1 = (A / T) &&& (0xFFFFFFF0 &&& 2 ^ 4 - 1) := by
    rw [chunkSize, Nat.and_assoc]
  have h3 : (0xFFFFFFF0 : ℕ) &&& 2 ^ 4 - 1 = 0 := by decide
  have : (16 : ℕ) = 2 ^ 4 := by norm_num
  rw [this, h, h2, h3]
  simp

/-- For a 32-bit representable quotient, masking with `0xFFFFFFF0` is
exactly rounding down to a multiple of 16. -/
lemma and_mask_eq_div_mul (x : ℕ) (hx : x < 2 ^ 32) :
    x &&& 0xFFFFFFF0 = x / 16 * 16 := by
  have hM : (0xFFFFFFF0 : ℕ) = (2 ^ 28 - 1) <<< 4 := by decide
  have hR : x / 16 * 16 = x >>> 4 <<< 4 := by
    rw [Nat.shiftRight_eq_div_pow, Nat.shiftLeft_eq]
  rw [hM, hR]
  apply Nat.eq_of_testBit_eq
  intro i
  rw [Nat.testBit_and, Nat.testBit_shiftLeft, Nat.testBit_shiftLeft,
    Nat.testBit_two_pow_sub_one]
  rcases Nat.lt_or_ge i 4 with h4 | h4
  · simp [Nat.not_le.2 h4]
  · rw [Nat.testBit_shiftRight]
    have h44 : 4 + (i - 4) = i := by omega
    rw [h44]
    rcases Nat.lt_or_ge i 32 with h32 | h32
    · simp [h4, show i - 4 < 28 by omega]
    · have hfalse : x.testBit i = false :=
        Nat.testBit_lt_two_pow
          (lt_of_lt_of_le hx (Nat.pow_le_pow_right (by norm_num) h32))
      simp [hfalse, show ¬ i - 4 < 28 by omega]

/-- The chunk size never exceeds `A / T`. -/
lemma chunkSize_le_div (A T : ℕ) : chunkSize A T ≤ A / T :=
  Nat.and_le_left

/-- All the chunks together never exceed the array. -/
lemma mul_chunkSize_le (A T : ℕ) : T * chunkSize A T ≤ A := by
  calc T * chunkSize A T ≤ T * (A / T) :=
        Nat.mul_le_mul_left T (chunkSize_le_div A T)
    _ ≤ A := by
        rw [Nat.mul_comm]
        exact Nat.div_mul_le_self A T

/-- Helper: summing a constant over `List.range n`. -/
lemma sum_map_const (n c : ℕ) : ((List.range n).map fun _ => c).sum = n * c := by
  induction n with
  | zero => simp
  | succ n ih =>
    rw [List.range_succ, List.map_append, List.sum_append, ih]
    simp [Nat.succ_mul]

/-! ## The copy kernel loop -/

/-- Characterization of the copy kernel loop: starting from a 16-aligned
loop counter `i ≤ size` with `size` a multiple of 16, the loop overwrites
exactly the destination indices in `[base + i, base + size)` with the
source values and leaves everything else unchanged.  (`n` is an upper bound
on the remaining iterations, used as the induction measure.) -/
lemma copyLoop_spec (src : ℕ → ℚ) (base size : ℕ) (hsize : size % 16 = 0) :
    ∀ n i dst, size - i ≤ n → i % 16 = 0 → i ≤ size → ∀ j,
      copyLoop src base size i dst j =
        if base + i ≤ j ∧ j < base + size then src j else dst j := by
  intro n
  induction n with
  | zero =>
    intro i dst hn hi hle j
    have hig : ¬ i < size := by omega
    rw [copyLoop, if_neg hig, if_neg (by omega)]
  | succ n ih =>
    intro i dst hn hi hle j
    rw [copyLoop]
    by_cases hig : i < size
    · rw [if_pos hig]
      have h16 : i + 16 ≤ size := by omega
      rw [ih (i + 16) _ (by omega) (by omega) h16 j]
      simp only [streamStore16]
      split_ifs <;> first | rfl | (exfalso; omega)
    · rw [if_neg hig, if_neg (by omega)]

/-- The indices the copy kernel loop touches are exactly
`[base + i, base + size)` (under the same alignment conditions). -/
lemma copyLoopAccesses_mem (base size : ℕ) (hsize : size % 16 = 0) :
    ∀ n i, size - i ≤ n → i % 16 = 0 → i ≤ size → ∀ j,
      (j ∈ copyLoopAccesses base size i ↔ base + i ≤ j ∧ j < base + size) := by
  intro n
  induction n with
  | zero =>
    intro i hn hi hle j
    have hig : ¬ i < size := by omega
    rw [copyLoopAccesses, if_neg hig]
    simp only [List.not_mem_nil, false_iff]
    omega
  | succ n ih =>
    intro i hn hi hle j
    rw [copyLoopAccesses]
    by_cases hig : i < size
    · rw [if_pos hig]
      have h16 : i + 16 ≤ size := by omega
      rw [List.mem_append, ih (i + 16) (by omega) (by omega) h16 j]
      simp only [List.mem_map, List.mem_range]
      constructor
      · rintro (⟨m, hm, rfl⟩ | ⟨h1, h2⟩) <;> constructor <;> omega
      · rintro ⟨h1, h2⟩
        by_cases hj : j < base + i + 16
        · exact Or.inl ⟨j - (base + i), by omega, by omega⟩
        · exact Or.inr ⟨by omega, h2⟩
    · rw [if_neg hig]
      simp only [List.not_mem_nil, false_iff]
      omega

/-- Composing the workers of a trial: worker `tt` covers
`[S * tt, S * (tt + 1))`, so after all `T` workers the destination agrees
with the source below `T * S` and is untouched above. -/
lemma foldl_copy_spec (av : ℕ → ℚ) (S : ℕ) (hS : S % 16 = 0) :
    ∀ T (bv : ℕ → ℚ) j,
      (List.range T).foldl (fun dst tt => copyLoop av (S * tt) S 0 dst) bv j =
        if j < T * S then av j else bv j := by
  intro T
  induction T with
  | zero => intro bv j; simp
  | succ T ih =>
    intro bv j
    rw [List.range_succ, List.foldl_append, List.foldl_cons, List.foldl_nil]
    rw [copyLoop_spec av (S * T) S hS S 0 _ (by omega) (by omega) (Nat.zero_le S) j]
    rw [ih bv j]
    rw [Nat.succ_mul, Nat.mul_comm S T, Nat.add_zero]
    split_ifs <;> first | rfl | (exfalso; omega)

/-- The destination array after a trial, index by index. -/
lemma runTrial_b_eq (st : St) (T S : ℕ) (hS : S % 16 = 0) (j : ℕ) :
    (runTrial st T S).b j = if j < T * S then st.a j else st.b j :=
  foldl_copy_spec st.a S hS T st.b j

/-- `chunkSize` really is `⌊A/T⌋` rounded down to a multiple of 16 (for any
array size that fits the 32-bit arithmetic of the source). -/
lemma chunkSize_eq (A T : ℕ) (hA : A < 2 ^ 32) :
    chunkSize A T = A / T / 16 * 16 := by
  rw [chunkSize]
  exact and_mask_eq_div_mul (A / T) (lt_of_le_of_lt (Nat.div_le_self A T) hA)

/-- Concrete array state for witnesses: the source holds the index value,
the destination holds zero. -/
def exSt : St := { a := fun j => (j : ℚ), b := fun _ => 0 }

/-- C1: Copy correctness — after one trial with thread count `T` and
per-worker chunk size `S = chunkSize A T`, for every worker `i < T` and
offset `m < S`, the destination element at `i·S + m` equals the source
element at `i·S + m`. -/
theorem copy_correct (A T : ℕ) (st : St) (i m : ℕ) (hi : i < T)
    (hm : m < chunkSize A T) :
    (runTrial st T (chunkSize A T)).b (i * chunkSize A T + m) =
      st.a (i * chunkSize A T + m) := by
  rw [runTrial_b_eq st T (chunkSize A T) (chunkSize_mod_sixteen A T)]
  have h1 : i * chunkSize A T + m < (i + 1) * chunkSize A T := by
    rw [Nat.succ_mul]
    omega
  have h2 : (i + 1) * chunkSize A T ≤ T * chunkSize A T :=
    Nat.mul_le_mul_right _ hi
  rw [if_pos (lt_of_lt_of_le h1 h2)]

/-- Witness for C1 at `A = 64`, `T = 2`, worker `i = 1`, offset `m = 5`. -/
theorem copy_correct_witness :
    1 < 2 ∧ 5 < chunkSize 64 2 ∧
      (runTrial exSt 2 (chunkSize 64 2)).b (1 * chunkSize 64 2 + 5) =
        exSt.a (1 * chunkSize 64 2 + 5) :=
  ⟨by decide, by decide, copy_correct 64 2 exSt 1 5 (by decide) (by decide)⟩

/-- C2: Work partitioning — for `T ≥ 1` and 32-bit representable `A`, the
chunk size is `⌊A/T⌋` rounded down to a multiple of the vector width 16,
worker `i` is assigned base offset `i·S` (in all three arrays) with extent
`S`, the total number of assigned elements is `T·S`, and `T·S ≤ A`. -/
theorem partition_correct (A T : ℕ) (ok : ℕ → Bool) (hT : 1 ≤ T)
    (hA : A < 2 ^ 32) :
    chunkSize A T = A / T / 16 * 16 ∧
    (∀ i, i < T →
      (setupWorkers A T ok).1[i]? =
        some ⟨chunkSize A T * i, chunkSize A T * i, chunkSize A T * i,
          chunkSize A T, i⟩) ∧
    ((setupWorkers A T ok).1.map WorkerInfo.size).sum = T * chunkSize A T ∧
    T * chunkSize A T ≤ A := by
  refine ⟨chunkSize_eq A T hA, ?_, ?_, mul_chunkSize_le A T⟩
  · intro i hi
    simp [setupWorkers, List.getElem?_map, List.getElem?_range, hi, get_cpu_id]
  · simp only [setupWorkers, List.map_map, Function.comp]
    exact sum_map_const T (chunkSize A T)

/-- Witness for C2 at the spec's scenario `A = 400000000`, `T = 4`:
each worker covers exactly 100000000 elements. -/
theorem partition_correct_witness :
    1 ≤ 4 ∧ (400000000 : ℕ) < 2 ^ 32 ∧ chunkSize 400000000 4 = 100000000 := by
  refine ⟨by decide, by decide, ?_⟩
  have h := (partition_correct 400000000 4 (fun _ => true) (by decide) (by decide)).1
  rw [h]

/-- C6: Frame property — a trial leaves the source array unchanged, leaves
every destination element at index `≥ T·S` unchanged, each individual
worker writes only its own destination range `[i·S, (i+1)·S)`, and every
index any worker touches (load or store) is below `T·S`. -/
theorem frame_property (st : St) (A T : ℕ) :
    (runTrial st T (chunkSize A T)).a = st.a ∧
    (∀ j, T * chunkSize A T ≤ j →
      (runTrial st T (chunkSize A T)).b j = st.b j) ∧
    (∀ i j, i < T →
      (j < chunkSize A T * i ∨ chunkSize A T * (i + 1) ≤ j) →
      copyLoop st.a (chunkSize A T * i) (chunkSize A T) 0 st.b j = st.b j) ∧
    (∀ i, i < T → ∀ j,
      j ∈ copyLoopAccesses (chunkSize A T * i) (chunkSize A T) 0 →
      j < T * chunkSize A T) := by
  have hSmod := chunkSize_mod_sixteen A T
  refine ⟨rfl, ?_, ?_, ?_⟩
  · intro j hj
    rw [runTrial_b_eq st T (chunkSize A T) hSmod, if_neg (Nat.not_lt.2 hj)]
  · intro i j hi hcase
    rw [Nat.mul_succ] at hcase
    rw [copyLoop_spec st.a (chunkSize A T * i) (chunkSize A T) hSmod
      (chunkSize A T) 0 st.b (by omega) (by omega) (Nat.zero_le _) j]
    rw [if_neg (by omega)]
  · intro i hi j hj
    have hmem := (copyLoopAccesses_mem (chunkSize A T * i) (chunkSize A T) hSmod
      (chunkSize A T) 0 (by omega) (by omega) (Nat.zero_le _) j).1 hj
    have h1 : j < chunkSize A T * (i + 1) := by
      rw [Nat.mul_succ]
      omega
    have h2 : chunkSize A T * (i + 1) ≤ chunkSize A T * T :=
      Nat.mul_le_mul_left _ hi
    rw [Nat.mul_comm T (chunkSize A T)]
    exact lt_of_lt_of_le h1 h2

/-- Witness for C6: the destination above `T·S = 64` is untouched at
`A = 64`, `T = 2`, index 70. -/
theorem frame_property_witness :
    2 * chunkSize 64 2 ≤ 70 ∧ (runTrial exSt 2 (chunkSize 64 2)).b 70 = exSt.b 70 :=
  ⟨by decide, (frame_property exSt 64 2).2.1 70 (by decide)⟩

/-- C10: In-bounds safety of the kernel loop — every index worker `i`
accesses lies in `[i·S, (i+1)·S)`, in particular below `T·S`, and
`T·S ≤ A`; since `S` is a multiple of 16 there is no partial final vector
group. -/
theorem kernel_in_bounds (A T i : ℕ) (hT : 1 ≤ T) (hi : i < T) :
    ∀ j, j ∈ copyLoopAccesses (chunkSize A T * i) (chunkSize A T) 0 →
      chunkSize A T * i ≤ j ∧ j < chunkSize A T * (i + 1) ∧
      j < T * chunkSize A T ∧ T * chunkSize A T ≤ A := by
  intro j hj
  have hSmod := chunkSize_mod_sixteen A T
  have hmem := (copyLoopAccesses_mem (chunkSize A T * i) (chunkSize A T) hSmod
    (chunkSize A T) 0 (by omega) (by omega) (Nat.zero_le _) j).1 hj
  have h1 : j < chunkSize A T * (i + 1) := by
    rw [Nat.mul_succ]
    omega
  have h2 : chunkSize A T * (i + 1) ≤ chunkSize A T * T :=
    Nat.mul_le_mul_left _ hi
  refine ⟨by omega, h1, ?_, mul_chunkSize_le A T⟩
  rw [Nat.mul_comm]
  exact lt_of_lt_of_le h1 h2

/-- Witness for C10 at `A = 64`, `T = 2`, worker `i = 1`, access index 40. -/
theorem kernel_in_bounds_witness :
    (1 ≤ 2 ∧ 1 < 2) ∧
    40 ∈ copyLoopAccesses (chunkSize 64 2 * 1) (chunkSize 64 2) 0 ∧
    (chunkSize 64 2 * 1 ≤ 40 ∧ 40 < chunkSize 64 2 * (1 + 1) ∧
      40 < 2 * chunkSize 64 2 ∧ 2 * chunkSize 64 2 ≤ 64) := by
  have hmem : 40 ∈ copyLoopAccesses (chunkSize 64 2 * 1) (chunkSize 64 2) 0 := by
    rw [copyLoopAccesses_mem (chunkSize 64 2 * 1) (chunkSize 64 2)
      (chunkSize_mod_sixteen 64 2) (chunkSize 64 2) 0 (by omega) (by decide)
      (Nat.zero_le _) 40]
    decide
  exact ⟨⟨by decide, by decide⟩, hmem,
    kernel_in_bounds 64 2 1 (by decide) (by decide) 40 hmem⟩

/-- C3: Per-trial reported time — the trial's recorded time is the sum of
the `T` workers' self-measured times divided by `T`, i.e. their arithmetic
mean. -/
theorem trial_time_is_mean (T : ℕ) (times : ℕ → ℚ) :
    trialTime T times = (∑ tt ∈ Finset.range T, times tt) / (T : ℚ) := by
  rw [trialTime]
  congr 1
  induction T with
  | zero => simp
  | succ T ih =>
    rw [List.range_succ, List.foldl_append, List.foldl_cons, List.foldl_nil,
      ih, Finset.sum_range_succ]

/-- C5: Bandwidth formula — the reported value is
`(2 × 4 × STREAM_ARRAY_SIZE) × 1e-6 / mintime`, a fixed byte constant that
does not depend on the thread count (nor on the partition's dropped tail). -/
theorem bandwidth_formula (threads n : ℕ) (times : ℕ → ℚ) :
    reportedBandwidth threads n times =
      2 * 4 * 128000000 * (1 / 1000000) / (aggregate n times).2.1 ∧
    bytesCopy = 2 * 4 * 128000000 ∧
    ∀ threads2, reportedBandwidth threads n times =
      reportedBandwidth threads2 n times := by
  refine ⟨?_, ?_, fun _ => rfl⟩
  · rw [reportedBandwidth, bytesCopy, bytesPerElement, streamArraySize]
    push_cast
    ring
  · rw [bytesCopy, bytesPerElement, streamArraySize]
    push_cast
    ring

/-- C7 counterexample: at thread count 0 the configuration is *not*
rejected — the source performs no validation, so the configuration phase
succeeds (and the arrays were already allocated before the thread count was
read). -/
theorem config_zero_not_rejected : configPhase 0 = Except.ok 0 := rfl

/-- C7 amended: no configuration validation exists — every thread count
(zero, negative, chunk-size-zero or beyond the 288-slot capacity alike)
passes the configuration phase unchanged; a non-positive thread count
merely makes the spawn loop run zero iterations. -/
theorem config_never_rejected (t : Int) :
    configPhase t = Except.ok t ∧ (t ≤ 0 → spawnCount t = 0) := by
  refine ⟨rfl, fun ht => ?_⟩
  simp [spawnCount, Int.toNat_of_nonpos ht]

/-- Witness for the amended C7 at `t = -3`. -/
theorem config_never_rejected_witness :
    (-3 : Int) ≤ 0 ∧ spawnCount (-3) = 0 :=
  ⟨by decide, (config_never_rejected (-3)).2 (by decide)⟩

/-- C8 counterexample: with all three allocations failing (`ENOMEM` = 12)
the run still proceeds, and with every `pthread_create` failing
(`EAGAIN` = 11) all four workers' time slots are still accumulated — the
process does not abort and a measurement is produced. -/
theorem alloc_failure_not_fatal :
    proceedsAfterAlloc 12 12 12 = true ∧
    joinedWorkers 4 (fun _ => 11) = [0, 1, 2, 3] := by
  exact ⟨rfl, by decide⟩

/-- C8 amended: the return codes of `posix_memalign` and `pthread_create`
are discarded — there is no abort path; the run proceeds and every worker
slot is joined and read into the trial time regardless of failures. -/
theorem alloc_and_create_unchecked :
    (∀ r1 r2 r3 : Int, proceedsAfterAlloc r1 r2 r3 = true) ∧
    (∀ (T : ℕ) (r : ℕ → Int), joinedWorkers T r = List.range T) :=
  ⟨fun _ _ _ => rfl, fun _ _ => rfl⟩

/-- C9 counterexample: when every affinity-binding request fails, the setup
loop emits no warning at all — the failure is swallowed silently, not
surfaced. -/
theorem affinity_failure_silent :
    (setupWorkers 128000000 4 (fun _ => false)).2 = [] := rfl

/-- C9 amended: affinity-binding failure is indeed non-fatal — the entire
setup result is independent of whether binding succeeded, so the workers
run identically (unbound) and the run is not aborted; but the failure is
silently ignored (no warning), and the default worker-to-core mapping is
the identity. -/
theorem affinity_failure_nonfatal (A T : ℕ) (ok : ℕ → Bool) :
    setupWorkers A T ok = setupWorkers A T (fun _ => true) ∧
    (setupWorkers A T ok).2 = [] ∧
    (∀ tid, get_cpu_id tid = tid) :=
  ⟨rfl, rfl, fun _ => rfl⟩

/-! ## Summary statistics (C4) -/

/-- Average component of `aggregate`, unfolded. -/
lemma aggregate_fst (n : ℕ) (times : ℕ → ℚ) :
    (aggregate n times).1 =
      ((List.range' 1 (n - 1)).foldl
        (fun acc k => (acc.1 + times k, min acc.2.1 (times k), max acc.2.2 (times k)))
        ((0 : ℚ), fltMax, (0 : ℚ))).1 / ((n : ℚ) - 1) := rfl

/-- Minimum component of `aggregate`, unfolded. -/
lemma aggregate_min (n : ℕ) (times : ℕ → ℚ) :
    (aggregate n times).2.1 =
      ((List.range' 1 (n - 1)).foldl
        (fun acc k => (acc.1 + times k, min acc.2.1 (times k), max acc.2.2 (times k)))
        ((0 : ℚ), fltMax, (0 : ℚ))).2.1 := rfl

/-- Maximum component of `aggregate`, unfolded. -/
lemma aggregate_max (n : ℕ) (times : ℕ → ℚ) :
    (aggregate n times).2.2 =
      ((List.range' 1 (n - 1)).foldl
        (fun acc k => (acc.1 + times k, min acc.2.1 (times k), max acc.2.2 (times k)))
        ((0 : ℚ), fltMax, (0 : ℚ))).2.2 := rfl

/-- First component of the statistics fold accumulates the sum. -/
lemma statsFold_fst (f : ℕ → ℚ) (l : List ℕ) :
    ∀ acc : ℚ × ℚ × ℚ,
      (l.foldl (fun acc k => (acc.1 + f k, min acc.2.1 (f k), max acc.2.2 (f k))) acc).1 =
        acc.1 + (l.map f).sum := by
  induction l with
  | nil => intro acc; simp
  | cons hd tl ih =>
    intro acc
    rw [List.foldl_cons, ih, List.map_cons, List.sum_cons]
    simp only []
    ring

/-- The running minimum never exceeds its initial value. -/
lemma statsFold_min_le_init (f : ℕ → ℚ) (l : List ℕ) :
    ∀ acc : ℚ × ℚ × ℚ,
      (l.foldl (fun acc k => (acc.1 + f k, min acc.2.1 (f k), max acc.2.2 (f k))) acc).2.1 ≤
        acc.2.1 := by
  induction l with
  | nil => intro acc; exact le_refl _
  | cons hd tl ih =>
    intro acc
    rw [List.foldl_cons]
    exact le_trans (ih _) (min_le_left _ _)

/-- The running minimum is a lower bound of the visited values. -/
lemma statsFold_min_le (f : ℕ → ℚ) (l : List ℕ) (x : ℕ) (hx : x ∈ l) :
    ∀ acc : ℚ × ℚ × ℚ,
      (l.foldl (fun acc k => (acc.1 + f k, min acc.2.1 (f k), max acc.2.2 (f k))) acc).2.1 ≤
        f x := by
  induction l with
  | nil => exact absurd hx (List.not_mem_nil x)
  | cons hd tl ih =>
    intro acc
    rcases List.mem_cons.1 hx with hEq | hmem
    · subst hEq
      rw [List.foldl_cons]
      exact le_trans (statsFold_min_le_init f tl _) (min_le_right _ _)
    · rw [List.foldl_cons]
      exact ih hmem _

/-- The final minimum is either the initial value or an attained value. -/
lemma statsFold_min_mem (f : ℕ → ℚ) (l : List ℕ) :
    ∀ acc : ℚ × ℚ × ℚ,
      (l.foldl (fun acc k => (acc.1 + f k, min acc.2.1 (f k), max acc.2.2 (f k))) acc).2.1 =
          acc.2.1 ∨
        ∃ x ∈ l,
          (l.foldl (fun acc k => (acc.1 + f k, min acc.2.1 (f k), max acc.2.2 (f k))) acc).2.1 =
            f x := by
  induction l with
  | nil => intro acc; exact Or.inl rfl
  | cons hd tl ih =>
    intro acc
    rw [List.foldl_cons]
    rcases ih ((acc.1 + f hd, min acc.2.1 (f hd), max acc.2.2 (f hd))) with h | ⟨x, hx, hEq⟩
    · rcases min_choice acc.2.1 (f hd) with hc | hc
      · exact Or.inl (h.trans hc)
      · exact Or.inr ⟨hd, List.mem_cons_self hd tl, h.trans hc⟩
    · exact Or.inr ⟨x, List.mem_cons_of_mem hd hx, hEq⟩

/-- The running maximum never drops below its initial value. -/
lemma statsFold_max_ge_init (f : ℕ → ℚ) (l : List ℕ) :
    ∀ acc : ℚ × ℚ × ℚ,
      acc.2.2 ≤
        (l.foldl (fun acc k => (acc.1 + f k, min acc.2.1 (f k), max acc.2.2 (f k))) acc).2.2 := by
  induction l with
  | nil => intro acc; exact le_refl _
  | cons hd tl ih =>
    intro acc
    rw [List.foldl_cons]
    exact le_trans (le_max_left _ _) (ih _)

/-- The running maximum is an upper bound of the visited values. -/
lemma statsFold_max_ge (f : ℕ → ℚ) (l : List ℕ) (x : ℕ) (hx : x ∈ l) :
    ∀ acc : ℚ × ℚ × ℚ,
      f x ≤
        (l.foldl (fun acc k => (acc.1 + f k, min acc.2.1 (f k), max acc.2.2 (f k))) acc).2.2 := by
  induction l with
  | nil => exact absurd hx (List.not_mem_nil x)
  | cons hd tl ih =>
    intro acc
    rcases List.mem_cons.1 hx with hEq | hmem
    · subst hEq
      rw [List.foldl_cons]
      exact le_trans (le_max_right _ _) (statsFold_max_ge_init f tl _)
    · rw [List.foldl_cons]
      exact ih hmem _

/-- The final maximum is either the initial value or an attained value. -/
lemma statsFold_max_mem (f : ℕ → ℚ) (l : List ℕ) :
    ∀ acc : ℚ × ℚ × ℚ,
      (l.foldl (fun acc k => (acc.1 + f k, min acc.2.1 (f k), max acc.2.2 (f k))) acc).2.2 =
          acc.2.2 ∨
        ∃ x ∈ l,
          (l.foldl (fun acc k => (acc.1 + f k, min acc.2.1 (f k), max acc.2.2 (f k))) acc).2.2 =
            f x := by
  induction l with
  | nil => intro acc; exact Or.inl rfl
  | cons hd tl ih =>
    intro acc
    rw [List.foldl_cons]
    rcases ih ((acc.1 + f hd, min acc.2.1 (f hd), max acc.2.2 (f hd))) with h | ⟨x, hx, hEq⟩
    · rcases max_choice acc.2.2 (f hd) with hc | hc
      · exact Or.inl (h.trans hc)
      · exact Or.inr ⟨hd, List.mem_cons_self hd tl, h.trans hc⟩
    · exact Or.inr ⟨x, List.mem_cons_of_mem hd hx, hEq⟩

/-- The statistics fold only looks at the values of `f` on the list. -/
lemma statsFold_congr (f g : ℕ → ℚ) (l : List ℕ) (h : ∀ k ∈ l, f k = g k) :
    ∀ acc : ℚ × ℚ × ℚ,
      l.foldl (fun acc k => (acc.1 + f k, min acc.2.1 (f k), max acc.2.2 (f k))) acc =
        l.foldl (fun acc k => (acc.1 + g k, min acc.2.1 (g k), max acc.2.2 (g k))) acc := by
  induction l with
  | nil => intro acc; rfl
  | cons hd tl ih =>
    intro acc
    rw [List.foldl_cons, List.foldl_cons, h hd (List.mem_cons_self hd tl)]
    exact ih (fun k hk => h k (List.mem_cons_of_mem hd hk)) _

/-- A uniform lower bound on a list survives summation. -/
lemma mul_length_le_sum (f : ℕ → ℚ) (l : List ℕ) (c : ℚ)
    (h : ∀ x ∈ l, c ≤ f x) : c * (l.length : ℚ) ≤ (l.map f).sum := by
  induction l with
  | nil => simp
  | cons hd tl ih =>
    rw [List.map_cons, List.sum_cons, List.length_cons]
    have h1 := h hd (List.mem_cons_self hd tl)
    have h2 := ih (fun x hx => h x (List.mem_cons_of_mem hd hx))
    push_cast
    linarith

/-- A uniform upper bound on a list survives summation. -/
lemma sum_le_mul_length (f : ℕ → ℚ) (l : List ℕ) (c : ℚ)
    (h : ∀ x ∈ l, f x ≤ c) : (l.map f).sum ≤ c * (l.length : ℚ) := by
  induction l with
  | nil => simp
  | cons hd tl ih =>
    rw [List.map_cons, List.sum_cons, List.length_cons]
    have h1 := h hd (List.mem_cons_self hd tl)
    have h2 := ih (fun x hx => h x (List.mem_cons_of_mem hd hx))
    push_cast
    linarith

/-- Summing over `range' 1 m` is summing over the interval `[1, m+1)`. -/
lemma sum_map_range'_one (f : ℕ → ℚ) :
    ∀ m, ((List.range' 1 m).map f).sum = ∑ k ∈ Finset.Ico 1 (m + 1), f k := by
  intro m
  induction m with
  | zero => simp
  | succ m ih =>
    rw [List.range'_concat, List.map_append, List.sum_append, ih,
      Finset.sum_Ico_succ_top (by omega : 1 ≤ m + 1)]
    have h1 : 1 + 1 * m = m + 1 := by omega
    simp [h1, Nat.add_comm 1 m]

/-- C4: Aggregate statistics — for `n ≥ 2` trials whose non-warm-up times
are physical elapsed times (nonnegative and below `FLT_MAX`): `avgtime` is
the sum of trials `1 … n-1` divided by `n - 1`; `mintime` (resp. `maxtime`)
is a lower (resp. upper) bound of those trials' times and is attained by
one of them; the warm-up trial 0 is excluded (the result does not depend on
`times 0`); and `mintime ≤ avgtime ≤ maxtime`. -/
theorem statistics_correct (n : ℕ) (times : ℕ → ℚ) (hn : 2 ≤ n)
    (hb : ∀ k, 1 ≤ k → k < n → 0 ≤ times k ∧ times k ≤ fltMax) :
    (aggregate n times).1 = (∑ k ∈ Finset.Ico 1 n, times k) / ((n : ℚ) - 1) ∧
    (∀ k, 1 ≤ k → k < n → (aggregate n times).2.1 ≤ times k) ∧
    (∃ k, 1 ≤ k ∧ k < n ∧ (aggregate n times).2.1 = times k) ∧
    (∀ k, 1 ≤ k → k < n → times k ≤ (aggregate n times).2.2) ∧
    (∃ k, 1 ≤ k ∧ k < n ∧ (aggregate n times).2.2 = times k) ∧
    (∀ t0, aggregate n (Function.update times 0 t0) = aggregate n times) ∧
    (aggregate n times).2.1 ≤ (aggregate n times).1 ∧
    (aggregate n times).1 ≤ (aggregate n times).2.2 := by
  have hmem : ∀ k : ℕ, k ∈ List.range' 1 (n - 1) ↔ 1 ≤ k ∧ k < n := by
    intro k
    rw [List.mem_range'_1]
    omega
  have hlen : ((List.range' 1 (n - 1)).length : ℚ) = (n : ℚ) - 1 := by
    rw [List.length_range', Nat.cast_sub (by omega : 1 ≤ n), Nat.cast_one]
  have hpos : (0 : ℚ) < (n : ℚ) - 1 := by
    have h2 : (2 : ℚ) ≤ (n : ℚ) := by exact_mod_cast hn
    linarith
  have havg : (aggregate n times).1 =
      ((List.range' 1 (n - 1)).map times).sum / ((n : ℚ) - 1) := by
    rw [aggregate_fst, statsFold_fst]
    norm_num
  have hminlb : ∀ k, 1 ≤ k → k < n → (aggregate n times).2.1 ≤ times k := by
    intro k h1 h2
    rw [aggregate_min]
    exact statsFold_min_le times _ k ((hmem k).2 ⟨h1, h2⟩) _
  have hmaxub : ∀ k, 1 ≤ k → k < n → times k ≤ (aggregate n times).2.2 := by
    intro k h1 h2
    rw [aggregate_max]
    exact statsFold_max_ge times _ k ((hmem k).2 ⟨h1, h2⟩) _
  refine ⟨?_, hminlb, ?_, hmaxub, ?_, ?_, ?_, ?_⟩
  · rw [havg, sum_map_range'_one, show n - 1 + 1 = n from by omega]
  · rcases statsFold_min_mem times (List.range' 1 (n - 1))
        ((0 : ℚ), fltMax, (0 : ℚ)) with h | ⟨x, hx, hEq⟩
    · refine ⟨1, le_refl 1, by omega, ?_⟩
      have hle := hminlb 1 (le_refl 1) (by omega)
      have hge : times 1 ≤ (aggregate n times).2.1 := by
        rw [aggregate_min, h]
        exact (hb 1 (le_refl 1) (by omega)).2
      exact le_antisymm hle hge
    · exact ⟨x, ((hmem x).1 hx).1, ((hmem x).1 hx).2, by rw [aggregate_min, hEq]⟩
  · rcases statsFold_max_mem times (List.range' 1 (n - 1))
        ((0 : ℚ), fltMax, (0 : ℚ)) with h | ⟨x, hx, hEq⟩
    · refine ⟨1, le_refl 1, by omega, ?_⟩
      have hge := hmaxub 1 (le_refl 1) (by omega)
      have hle : (aggregate n times).2.2 ≤ times 1 := by
        rw [aggregate_max, h]
        exact (hb 1 (le_refl 1) (by omega)).1
      exact le_antisymm hle hge
    · exact ⟨x, ((hmem x).1 hx).1, ((hmem x).1 hx).2, by rw [aggregate_max, hEq]⟩
  · intro t0
    have hcong := statsFold_congr (Function.update times 0 t0) times
      (List.range' 1 (n - 1))
      (fun k hk => Function.update_noteq (by have := (hmem k).1 hk; omega) t0 times)
      ((0 : ℚ), fltMax, (0 : ℚ))
    simp only [aggregate]
    rw [hcong]
  · have h1 : (aggregate n times).2.1 * ((List.range' 1 (n - 1)).length : ℚ) ≤
        ((List.range' 1 (n - 1)).map times).sum :=
      mul_length_le_sum times _ _ (fun x hx =>
        hminlb x ((hmem x).1 hx).1 ((hmem x).1 hx).2)
    rw [hlen] at h1
    rw [havg, le_div_iff₀ hpos]
    exact h1
  · have h1 : ((List.range' 1 (n - 1)).map times).sum ≤
        (aggregate n times).2.2 * ((List.range' 1 (n - 1)).length : ℚ) :=
      sum_le_mul_length times _ _ (fun x hx =>
        hmaxub x ((hmem x).1 hx).1 ((hmem x).1 hx).2)
    rw [hlen] at h1
    rw [havg, div_le_iff₀ hpos]
    exact h1

/-- Concrete trial-time function for the C4 witness. -/
def exTimes : ℕ → ℚ := fun k => (k : ℚ) + 1

/-- Witness for C4 at `n = ntimes = 10` with times `k + 1`: the hypotheses
hold and `mintime ≤ avgtime ≤ maxtime`. -/
theorem statistics_correct_witness :
    2 ≤ ntimes ∧
    (aggregate ntimes exTimes).2.1 ≤ (aggregate ntimes exTimes).1 ∧
    (aggregate ntimes exTimes).1 ≤ (aggregate ntimes exTimes).2.2 := by
  have hb : ∀ k, 1 ≤ k → k < ntimes → 0 ≤ exTimes k ∧ exTimes k ≤ fltMax := by
    intro k h1 h2
    rw [ntimes] at h2
    constructor
    · have : (0 : ℚ) ≤ (k : ℚ) := Nat.cast_nonneg k
      rw [exTimes]
      linarith
    · have hk : (k : ℚ) ≤ 9 := by exact_mod_cast Nat.le_of_lt_succ h2
      rw [exTimes, fltMax]
      norm_num
      linarith
  have h := statistics_correct ntimes exTimes (by decide) hb
  exact ⟨by decide, h.2.2.2.2.2.2.1, h.2.2.2.2.2.2.2⟩
